import Mathlib

/-!
Verification development for `doitlive.py` (0.1.0), a scripted live-typing
shell-session player.  The Python source is shallowly embedded: strings are
`List Char`, the mutable prompt state and `os` environment become an explicit
`World` record, the blocking `getchar` terminal reads become an explicit list
of input keys, and the child process's behaviour (exit code, captured output)
becomes explicit parameters.  Every definition mirrors a specific function of
the source file; the doc comment of each names it.
-/

deriving instance DecidableEq for Except

namespace Doitlive

/-- Python `\s` / `str.strip` whitespace over the ASCII range
(space, tab, newline, carriage return, vertical tab, form feed). -/
def pyIsSpace (c : Char) : Bool :=
  c = ' ' || c = '\t' || c = '\n' || c = '\r' || c = '\x0b' || c = '\x0c'

/-- ASCII decimal digit. -/
def pyIsDigit (c : Char) : Bool := '0' ≤ c && c ≤ '9'

/-- Python `str.strip()`: drop leading and trailing whitespace. -/
def pyStrip (s : List Char) : List Char :=
  ((s.dropWhile pyIsSpace).reverse.dropWhile pyIsSpace).reverse

/-- Python `str.split()` with no argument: split on runs of whitespace,
yielding no empty words.  Used by `run_command` for `cmd.split()`.  The
`fuel` argument only bounds the recursion (each round consumes at least one
character, so `length + 1` is always enough). -/
def pySplitAux : Nat → List Char → List (List Char)
  | 0, _ => []
  | fuel + 1, s =>
      match s.dropWhile pyIsSpace with
      | [] => []
      | c :: cs =>
          (c :: cs).takeWhile (fun x => !pyIsSpace x) ::
            pySplitAux fuel ((c :: cs).dropWhile (fun x => !pyIsSpace x))

/-- Python `str.split()` (see `pySplitAux`). -/
def pySplit (s : List Char) : List (List Char) := pySplitAux (s.length + 1) s

/-- Digits-only string to a natural number (helper for `pyInt`). -/
def digitsToNat (ds : List Char) : Option Nat :=
  if ds ≠ [] ∧ ds.all pyIsDigit then
    some (ds.foldl (fun acc c => acc * 10 + (c.toNat - '0'.toNat)) 0)
  else none

/-- Python `int(str)`: optional surrounding whitespace, optional sign, at
least one ASCII digit; anything else raises `ValueError`, modelled as `none`.
Used by `run` for the `speed` directive (`speed = int(arg)`). -/
def pyInt (s : List Char) : Option Int :=
  match pyStrip s with
  | '+' :: ds => (digitsToNat ds).map Int.ofNat
  | '-' :: ds => (digitsToNat ds).map fun n => -(Int.ofNat n)
  | ds => (digitsToNat ds).map Int.ofNat

/-! ## Directive parser (`OPTION_RE`)

The source compiles
`^#\s?doitlive\s+(?P<option>prompt|shell|alias|env|speed):\s*(?P<arg>.+)$`
and applies `OPTION_RE.match` to the stripped line.  The regex is embedded as
a deterministic matcher; determinism is faithful because no backtracking
choice of the regex engine can change the outcome here: `\s?` and `\s+` are
followed by letters, which are never whitespace, and the five option names
are pairwise non-prefixing alternatives followed by a literal colon. -/

/-- The five recognized directive options. -/
inductive DirOption where
  | prompt | shell | alias | env | speed
deriving DecidableEq, Repr

/-- The literal name of a directive option as it appears in the regex. -/
def optionName : DirOption → List Char
  | .prompt => "prompt".data
  | .shell => "shell".data
  | .alias => "alias".data
  | .env => "env".data
  | .speed => "speed".data

/-- All five options, in the alternation order of `OPTION_RE`. -/
def allOptions : List DirOption := [.prompt, .shell, .alias, .env, .speed]

/-- Match a literal prefix, returning the remainder. -/
def chompLit : List Char → List Char → Option (List Char)
  | [], s => some s
  | _ :: _, [] => none
  | p :: ps, c :: cs => if p = c then chompLit ps cs else none

/-- `\s?` before `doitlive`: consume one whitespace character if present
(the following literal starts with `d`, so greediness is deterministic). -/
def chompOptSpace : List Char → List Char
  | [] => []
  | c :: cs => if pyIsSpace c then cs else c :: cs

/-- The option alternation plus the literal colon:
`(prompt|shell|alias|env|speed):`. -/
def chompOption (s : List Char) : Option (DirOption × List Char) :=
  (allOptions.filterMap fun o =>
    (chompLit (optionName o) s).bind fun r =>
      (chompLit [':'] r).map fun r2 => (o, r2)).head?

/-- The argument part `\s*(?P<arg>.+)$` of `OPTION_RE`, with Python
semantics: `.` matches anything but a newline, `$` matches at the end of the
string or just before one final newline, `\s*` is greedy but backtracks just
enough to leave `.+` at least one character. -/
def parseArg (s : List Char) : Option (List Char) :=
  let u := s.dropWhile pyIsSpace
  if u = [] then
    -- s is entirely whitespace: `\s*` backs off so `.+` can take the last
    -- non-newline character (one trailing newline may be eaten by `$`).
    let t := if s.getLast? = some '\n' then s.dropLast else s
    match t.getLast? with
    | some c => if c = '\n' then none else some [c]
    | none => none
  else
    if u.getLast? = some '\n' then
      let b := u.dropLast
      if b.any (· = '\n') || b = [] then none else some b
    else
      if u.any (· = '\n') then none else some u

/-- `OPTION_RE.match(command)`: the whole directive matcher, returning the
`(option, arg)` groups on success. -/
def parseDirective (line : List Char) : Option (DirOption × List Char) :=
  match line with
  | '#' :: rest =>
      (chompLit "doitlive".data (chompOptSpace rest)).bind fun r =>
        let ws := r.takeWhile pyIsSpace
        let r2 := r.dropWhile pyIsSpace
        if ws = [] then none
        else (chompOption r2).bind fun (o, r3) =>
          (parseArg r3).map fun arg => (o, arg)
  | _ => none

/-! ## Prompt renderer (`PromptState`, `get_default_prompt`, `format_prompt`)

The process-global state read by the renderer (OS user, current working
directory, `HOME`, the `DOITLIVE_PROMPT` environment variable) is an explicit
`World` record. -/

/-- The ambient process state the source reads through `getpass.getuser()`,
`os.getcwd()`, `env['HOME']` and `env.get('DOITLIVE_PROMPT')`. -/
structure World where
  user : List Char
  cwd : List Char
  home : List Char
  doitlivePrompt : Option (List Char)
deriving DecidableEq, Repr

/-- One ANSI SGR escape sequence, as emitted by `click.style`. -/
def ansiCode (n : Nat) : List Char := '\x1b' :: '[' :: (toString n).data ++ ['m']

/-- `click.style(text, fg=cyan, bold=True)`. -/
def styleCyanBold (t : List Char) : List Char :=
  ansiCode 36 ++ ansiCode 1 ++ t ++ ansiCode 0

/-- `click.style(text, fg=green)`. -/
def styleGreen (t : List Char) : List Char := ansiCode 32 ++ t ++ ansiCode 0

/-- `os.path.split(p)[-1]`: everything after the last slash. -/
def pathTail (p : List Char) : List Char := (p.reverse.takeWhile (· ≠ '/')).reverse

/-- The display form of the working directory computed by
`PromptState.update`: `~` when it equals `HOME`, else its last component. -/
def displayCwdRaw (w : World) : List Char :=
  if w.cwd = w.home then ['~'] else pathTail w.cwd

/-- The cached render inputs of the source's `PromptState` object. -/
structure PromptState where
  user : List Char
  cwd : List Char
  display_cwd : List Char
deriving DecidableEq, Repr

/-- `PromptState.update` (lines 45–49): restyle the user and working
directory from the current process state. -/
def PromptState.update (w : World) : PromptState :=
  { user := styleCyanBold w.user
    cwd := w.cwd
    display_cwd := styleGreen (displayCwdRaw w) }

/-- `get_default_prompt` (lines 56–63): `DOITLIVE_PROMPT`, when set and
nonempty (Python truthiness), is returned verbatim; otherwise the dynamic
`{user}@{dir}: $` rendering of the current state. -/
def get_default_prompt (w : World) : List Char :=
  match w.doitlivePrompt with
  | some p =>
      if p = [] then
        let ps := PromptState.update w
        ps.user ++ "@".data ++ ps.display_cwd ++ ": $".data
      else p
  | none =>
      let ps := PromptState.update w
      ps.user ++ "@".data ++ ps.display_cwd ++ ": $".data

/-- Python `str.format` restricted to what `format_prompt` exercises: plain
replacement fields `{user}`, `{cwd}`, `{full_cwd}`, doubled braces as
escapes.  Any other field name (`KeyError`), conversion/format specs, or
unbalanced brace (`ValueError`) is an error, modelled as `none`. -/
def pyFormatAux (user cwd fullCwd : List Char) : Nat → List Char → Option (List Char)
  | 0, _ => none
  | _, [] => some []
  | fuel + 1, '\x7b' :: '\x7b' :: rest =>
      (pyFormatAux user cwd fullCwd fuel rest).map fun t => '\x7b' :: t
  | fuel + 1, '\x7b' :: rest =>
      match rest.dropWhile (fun c => c ≠ '\x7d') with
      | '\x7d' :: rest2 =>
          let name := rest.takeWhile (fun c => c ≠ '\x7d')
          let value : Option (List Char) :=
            if name = "user".data then some user
            else if name = "cwd".data then some cwd
            else if name = "full_cwd".data then some fullCwd
            else none
          value.bind fun v =>
            (pyFormatAux user cwd fullCwd fuel rest2).map fun t => v ++ t
      | _ => none
  | fuel + 1, '\x7d' :: '\x7d' :: rest =>
      (pyFormatAux user cwd fullCwd fuel rest).map fun t => '\x7d' :: t
  | _ + 1, '\x7d' :: _ => none
  | fuel + 1, c :: rest => (pyFormatAux user cwd fullCwd fuel rest).map fun t => c :: t

/-- Python `str.format` (see `pyFormatAux`): each recursive step consumes at
least one character, so fuel `length + 1` always suffices. -/
def pyFormat (user cwd fullCwd s : List Char) : Option (List Char) :=
  pyFormatAux user cwd fullCwd (s.length + 1) s

/-- `format_prompt` (lines 133–139): refresh the prompt state, then
substitute `user` (styled), `cwd` (the styled display directory) and
`full_cwd` (the raw directory) into the template. -/
def format_prompt (w : World) (prompt : List Char) : Option (List Char) :=
  let ps := PromptState.update w
  pyFormat ps.user ps.display_cwd ps.cwd prompt

/-- The session's `prompt` variable: either the callable
`get_default_prompt` (the initial value) or a plain string (after a `prompt`
directive).  `if callable(prompt): prompt = prompt()` resolves it. -/
inductive PromptVal where
  | dynamicDefault
  | staticStr (s : List Char)
deriving DecidableEq, Repr

/-- Resolving the prompt value at a render point (`magictype` line 115–116,
`run` line 171–172). -/
def resolvePrompt (w : World) : PromptVal → List Char
  | .dynamicDefault => get_default_prompt w
  | .staticStr s => s

/-! ## Command executor (`run_command`) -/

/-- `os.path.expanduser`: a leading `~` standing alone or before a slash is
replaced by `HOME`; `~user` forms would need a passwd-database lookup and are
left unexpanded in the model. -/
def expanduser (home : List Char) (path : List Char) : List Char :=
  match path with
  | '~' :: rest =>
      if rest = [] || rest.head? = some '/' then home ++ rest else '~' :: rest
  | p => p

/-- `cmd.startswith("cd ")`. -/
def startsWithCd (cmd : List Char) : Bool :=
  match cmd with
  | 'c' :: 'd' :: ' ' :: _ => true
  | _ => false

/-- Does `pat` occur as a contiguous prefix of `s`? (helper for `hasSubstr`). -/
def hasPrefixL : List Char → List Char → Bool
  | [], _ => true
  | _ :: _, [] => false
  | p :: ps, c :: cs => p = c && hasPrefixL ps cs

/-- Python's `pat in s` substring test (used for `'bash' in shell`). -/
def hasSubstr (pat : List Char) : List Char → Bool
  | [] => hasPrefixL pat []
  | c :: cs => hasPrefixL pat (c :: cs) || hasSubstr pat cs

/-- One `export <envvar>` line of the script. -/
def exportLine (e : List Char) : List Char := "export ".data ++ e ++ ['\n']

/-- One `alias <alias>` line of the script. -/
def aliasLine (a : List Char) : List Char := "alias ".data ++ a ++ ['\n']

/-- The temporary command file written by `run_command` (lines 77–96):
shebang, coding comment, the bash alias-expansion preamble when the
interpreter path contains `bash`, one `export` line per env assignment, one
`alias` line per alias, then the command itself.  (`ensure_utf` is the
identity on Python 3.) -/
def buildScript (cmd shell : List Char) (aliases envvars : List (List Char)) :
    List Char :=
  "#!".data ++ shell ++ ['\n'] ++
  "# -*- coding: utf-8 -*-".data ++ ['\n'] ++
  (if hasSubstr "bash".data shell then "shopt -s expand_aliases".data ++ ['\n'] else []) ++
  (envvars.map exportLine).flatten ++
  (aliases.map aliasLine).flatten ++
  cmd ++ ['\n']

/-- The observable outcome of `run_command`: an in-process `os.chdir`, an
`IndexError` from `cmd.split()[1]`, or a sub-process run of the constructed
script — returning the exit code (`subprocess.call`), the captured output
(`subprocess.check_output`, exit 0), or raising `CalledProcessError`
(`check_output`, nonzero exit). -/
inductive CmdResult where
  | didChdir (dir : List Char)
  | indexErr
  | retCode (script : List Char) (code : Int)
  | captured (script : List Char) (out : List Char)
  | procError (script : List Char) (code : Int)
deriving DecidableEq, Repr

/-- `run_command` (lines 69–101).  The child process's behaviour is the
explicit pair `code`/`out`; `home` stands for the `HOME` environment variable
read by `expanduser`.  The driver always passes a non-empty `shell`, so the
`shell or env.get('DOITLIVE_INTERPRETER') or '/bin/bash'` defaulting is not
modelled. -/
def run_command (cmd shell home : List Char) (check_output : Bool)
    (aliases envvars : List (List Char)) (code : Int) (out : List Char) :
    CmdResult :=
  if startsWithCd cmd then
    match (pySplit cmd)[1]? with
    | some d => .didChdir (expanduser home d)
    | none => .indexErr
  else
    let script := buildScript cmd shell aliases envvars
    if check_output then
      if code = 0 then .captured script out else .procError script code
    else .retCode script code

/-! ## Playback engine (`magictype`, `wait_for`)

The blocking `getchar()` reads are an explicit list of input keys; running
out of keys models a terminal that never sends another key (`starved`). -/

/-- The escape key. -/
def ESC : Char := '\x1b'

/-- Outcome of the reveal loop, carrying the echoed slices in order. -/
inductive RevealOut where
  | starved (slices : List (List Char))
  | cancelled (slices : List (List Char))
  | done (slices : List (List Char)) (keysLeft : List Char)
deriving DecidableEq, Repr

/-- The reveal loop of `magictype` (lines 118–126): while the cursor `i` is
inside the text, read one key; `ESC` raises `click.Abort` before anything is
echoed at that step; any other key echoes `text[i:i+speed]` and advances the
cursor by `speed`. -/
def revealPhase (text : List Char) (speed : Nat) :
    Nat → List Char → List (List Char) → RevealOut
  | i, keys, acc =>
    if i < text.length then
      match keys with
      | [] => .starved acc
      | k :: ks =>
          if k = ESC then .cancelled acc
          else revealPhase text speed (i + speed) ks (acc ++ [(text.drop i).take speed])
    else .done acc keys

/-- Outcome of `wait_for(RETURNS)`. -/
inductive WaitOut where
  | starved
  | cancelled
  | got (keysLeft : List Char)
deriving DecidableEq, Repr

/-- `wait_for` (lines 103–111) at `RETURNS = {'\r', '\n'}`: read keys
forever, aborting on `ESC`, returning on a carriage return or line feed, and
silently discarding every other key. -/
def wait_for : List Char → WaitOut
  | [] => .starved
  | k :: ks =>
      if k = ESC then .cancelled
      else if k = '\r' ∨ k = '\n' then .got ks
      else wait_for ks

/-- Outcome of one `magictype` call, with the revealed text so far.
`committed` is the only outcome in which the source reaches the
`run_command` call (line 128); `cancelled` models the `click.Abort` raised at
a key read. -/
inductive MagicOutcome where
  | starved (echoed : List Char)
  | cancelled (echoed : List Char)
  | committed (echoed : List Char) (keysLeft : List Char)
deriving DecidableEq, Repr

/-- `magictype` (lines 113–131) up to the commit keystroke: the reveal loop
followed by `wait_for(RETURNS)`. -/
def magictype (text : List Char) (speed : Nat) (keys : List Char) :
    MagicOutcome :=
  match revealPhase text speed 0 keys [] with
  | .starved acc => .starved acc.flatten
  | .cancelled acc => .cancelled acc.flatten
  | .done acc ks =>
      match wait_for ks with
      | .starved => .starved acc.flatten
      | .cancelled => .cancelled acc.flatten
      | .got ks2 => .committed acc.flatten ks2

/-! ## Session driver (`run`) -/

/-- The driver-owned mutable configuration of `run`: the local variables
`shell`, `prompt`, `speed`, `aliases`, `envvars`.  `speed` is an `Int`
because `int(arg)` accepts signed values. -/
structure Config where
  shell : List Char
  prompt : PromptVal
  speed : Int
  aliases : List (List Char)
  envvars : List (List Char)
deriving DecidableEq, Repr

/-- The Python exceptions that can escape the session loop. -/
inductive SessionError where
  | valueError
  | formatError
  | indexError
  | calledProcessError (code : Int)
deriving DecidableEq, Repr

/-- How one line is classified by the loop body of `run`. -/
inductive LineAction where
  | blank
  | commentLine
  | command (cmd : List Char)
deriving DecidableEq, Repr

/-- One iteration of the `for line in commands` loop of `run` (lines
149–170), up to but not including the `magictype` call: strip the line, skip
it when empty, parse and apply comment magic when it starts with `#`, and
otherwise hand the stripped command on. -/
def processLine (w : World) (cfg : Config) (line : List Char) :
    Except SessionError (Config × LineAction) :=
  if pyStrip line = [] then .ok (cfg, .blank)
  else if (pyStrip line).head? = some '#' then
    match parseDirective (pyStrip line) with
    | some (o, arg) =>
        match o with
        | .prompt =>
            match format_prompt w arg with
            | some p => .ok ({ cfg with prompt := .staticStr p }, .commentLine)
            | none => .error .formatError
        | .shell => .ok ({ cfg with shell := arg }, .commentLine)
        | .alias => .ok ({ cfg with aliases := cfg.aliases ++ [arg] }, .commentLine)
        | .env => .ok ({ cfg with envvars := cfg.envvars ++ [arg] }, .commentLine)
        | .speed =>
            match pyInt arg with
            | some n => .ok ({ cfg with speed := n }, .commentLine)
            | none => .error .valueError
    | none => .ok (cfg, .commentLine)
  else .ok (cfg, .command (pyStrip line))

/-- What the session records for one executed command. -/
inductive SessionEvent where
  | ranScript (script : List Char)
  | capturedOut (script : List Char) (out : List Char)
  | changedDir (dir : List Char)
deriving DecidableEq, Repr

/-- `os.chdir` as a transition on the tracked working directory: an absolute
argument replaces it, a relative one is joined to it (OS-level normalization
of `.`, `..` and symlinks is outside the model). -/
def chdirResolve (cwd dir : List Char) : List Char :=
  if dir.head? = some '/' then dir else cwd ++ '/' :: dir

/-- The line loop of `run` (lines 149–170) composed with `run_command`, with
every command committed (the keystroke gating is modelled separately by
`magictype`).  Threads the configuration and the world through the lines,
consuming one entry of the child-behaviour oracle `codes`/`outs` per actual
sub-process execution (index `k`).  In capture mode a nonzero exit raises
`CalledProcessError` out of `subprocess.check_output`, aborting the session;
in non-capture mode `subprocess.call`'s return value reaches `magictype`,
fails its `isinstance(output, basestring)` test, and is discarded. -/
def runLines (check_output : Bool) (codes : Nat → Int) (outs : Nat → List Char) :
    World → Config → List (List Char) → Nat →
    Except SessionError (World × Config × List SessionEvent)
  | w, cfg, [], _ => .ok (w, cfg, [])
  | w, cfg, line :: rest, k =>
      match processLine w cfg line with
      | .error e => .error e
      | .ok (cfg', act) =>
          match act with
          | .blank | .commentLine => runLines check_output codes outs w cfg' rest k
          | .command cmd =>
              match run_command cmd cfg'.shell w.home check_output
                  cfg'.aliases cfg'.envvars (codes k) (outs k) with
              | .didChdir d =>
                  (runLines check_output codes outs
                      { w with cwd := chdirResolve w.cwd d } cfg' rest k).map
                    fun r => (r.1, r.2.1, .changedDir d :: r.2.2)
              | .indexErr => .error .indexError
              | .retCode script _ =>
                  (runLines check_output codes outs w cfg' rest (k + 1)).map
                    fun r => (r.1, r.2.1, .ranScript script :: r.2.2)
              | .captured script out =>
                  (runLines check_output codes outs w cfg' rest (k + 1)).map
                    fun r => (r.1, r.2.1, .capturedOut script out :: r.2.2)
              | .procError _ code => .error (.calledProcessError code)

/-! ## Spec-side comparison definitions

These definitions follow the wording of the specification (not the source)
and exist to be compared against the source-derived definitions above. -/

/-- The spec's notion of the argument part after the colon, for the inputs
the program actually feeds the parser (a stripped line, hence no trailing
whitespace and no newline): optional whitespace padding, then a nonempty
argument starting with a non-whitespace character. -/
def ArgMatch (rest arg : List Char) : Prop :=
  ∃ pad, rest = pad ++ arg ∧ (∀ c ∈ pad, pyIsSpace c) ∧ arg ≠ [] ∧
    ∀ c, arg.head? = some c → ¬ pyIsSpace c

/-- The directive shape of the spec (§4.1, §6), at the whitespace precision
of `OPTION_RE`: the comment marker, at most one whitespace character, the
literal keyword `doitlive`, at least one whitespace character, a recognized
option name, a colon, and an argument. -/
def DirectiveShape (line : List Char) (o : DirOption) (arg : List Char) : Prop :=
  ∃ sep ws rest,
    line = '#' :: (sep ++ "doitlive".data ++ ws ++ optionName o ++ ':' :: rest) ∧
    (sep = [] ∨ ∃ c, pyIsSpace c ∧ sep = [c]) ∧
    ws ≠ [] ∧ (∀ c ∈ ws, pyIsSpace c) ∧
    ArgMatch rest arg

/-- The script structure claimed by C6 verbatim (shebang; conditional
preamble; exports; aliases; command — with no coding-declaration line),
written from the spec's words for comparison with `buildScript`. -/
def claimedScriptSpec (cmd shell : List Char) (aliases envvars : List (List Char)) :
    List Char :=
  "#!".data ++ shell ++ ['\n'] ++
  (if hasSubstr "bash".data shell then "shopt -s expand_aliases".data ++ ['\n'] else []) ++
  (envvars.map exportLine).flatten ++
  (aliases.map aliasLine).flatten ++
  cmd ++ ['\n']

/-- The amended C6 script structure as a list of lines: shebang line, coding
declaration line, conditional alias-expansion preamble, one export line per
env assignment in order, one alias line per alias in order, then the command. -/
def scriptLinesAmended (cmd shell : List Char) (aliases envvars : List (List Char)) :
    List (List Char) :=
  ["#!".data ++ shell, "# -*- coding: utf-8 -*-".data]
  ++ (if hasSubstr "bash".data shell then ["shopt -s expand_aliases".data] else [])
  ++ envvars.map (fun e => "export ".data ++ e)
  ++ aliases.map (fun a => "alias ".data ++ a)
  ++ [cmd]

/-- The amended C6 script: its lines, each terminated by a newline. -/
def claimedScriptAmended (cmd shell : List Char)
    (aliases envvars : List (List Char)) : List Char :=
  ((scriptLinesAmended cmd shell aliases envvars).map (fun l => l ++ ['\n'])).flatten

/-! ## Helper lemmas -/

/-- One reveal step takes the ceiling-division step count down by one. -/
theorem ceil_div_step (m s : Nat) (hs : 1 ≤ s) (hm : 1 ≤ m) :
    (m + s - 1) / s = (m - s + s - 1) / s + 1 := by
  have e1 : m + s - 1 = (m - 1) + s := by omega
  rw [e1, Nat.add_div_right _ hs]
  rcases le_or_lt m s with h | h
  · have e2 : m - s = 0 := by omega
    rw [e2]
    have e3 : (0 + s - 1) / s = 0 := Nat.div_eq_of_lt (by omega)
    have e4 : (m - 1) / s = 0 := Nat.div_eq_of_lt (by omega)
    rw [e3, e4]
  · have e3 : m - s + s - 1 = m - 1 := by omega
    rw [e3]

/-- Unfolding lemma for the cursor-inside case of `revealPhase`. -/
theorem revealPhase_cons (text : List Char) (speed i : Nat) (k : Char)
    (ks : List Char) (acc : List (List Char)) (hi : i < text.length)
    (hk : k ≠ ESC) :
    revealPhase text speed i (k :: ks) acc =
      revealPhase text speed (i + speed) ks (acc ++ [(text.drop i).take speed]) := by
  rw [revealPhase.eq_def]
  simp [hi, hk]

/-- Unfolding lemma for the cursor-at-end case of `revealPhase`. -/
theorem revealPhase_done (text : List Char) (speed i : Nat) (keys : List Char)
    (acc : List (List Char)) (hi : ¬ i < text.length) :
    revealPhase text speed i keys acc = .done acc keys := by
  rw [revealPhase.eq_def]
  simp [hi]

/-- The reveal loop on an `ESC`-free key list long enough to finish: it ends
in `done`, consuming exactly `⌈(length − i) / speed⌉` keys, and the slices it
echoes are precisely the `speed`-sized windows of the remaining text. -/
theorem revealPhase_complete (text : List Char) (speed : Nat) (hs : 1 ≤ speed) :
    ∀ (keys : List Char) (i : Nat) (acc : List (List Char)),
      (∀ k ∈ keys, k ≠ ESC) →
      (text.length - i + speed - 1) / speed ≤ keys.length →
      ∃ slices,
        revealPhase text speed i keys acc =
          .done (acc ++ slices) (keys.drop ((text.length - i + speed - 1) / speed)) ∧
        slices.flatten = text.drop i ∧
        slices.length = (text.length - i + speed - 1) / speed ∧
        ∀ n (hn : n < slices.length),
          slices[n] = (text.drop (i + speed * n)).take speed := by
  intro keys
  induction keys with
  | nil =>
      intro i acc _ hlen
      have hstep : (text.length - i + speed - 1) / speed = 0 := by
        simpa using hlen
      have hii : ¬ i < text.length := by
        intro h
        have h2 : speed ≤ text.length - i + speed - 1 := by omega
        have h3 : speed / speed ≤ (text.length - i + speed - 1) / speed :=
          Nat.div_le_div_right h2
        rw [hstep, Nat.div_self hs] at h3
        omega
      refine ⟨[], ?_, ?_, ?_, ?_⟩
      · rw [revealPhase_done text speed i [] acc hii, hstep]
        simp
      · have : text.drop i = [] := List.drop_eq_nil_of_le (by omega)
        simp [this]
      · simp [hstep]
      · intro n hn
        simp at hn
  | cons k ks ih =>
      intro i acc hesc hlen
      rcases Nat.lt_or_ge i text.length with hi | hi
      · have hk : k ≠ ESC := hesc k (by simp)
        have hm : 1 ≤ text.length - i := by omega
        have hstep := ceil_div_step (text.length - i) speed hs hm
        have harith : text.length - (i + speed) = text.length - i - speed := by omega
        have hlen' : (text.length - (i + speed) + speed - 1) / speed ≤ ks.length := by
          rw [harith]
          simp only [List.length_cons] at hlen
          omega
        obtain ⟨slices', h1, h2, h3, h4⟩ :=
          ih (i + speed) (acc ++ [(text.drop i).take speed])
            (fun x hx => hesc x (by simp [hx])) hlen'
        refine ⟨(text.drop i).take speed :: slices', ?_, ?_, ?_, ?_⟩
        · rw [revealPhase_cons text speed i k ks acc hi hk, h1, hstep, harith]
          simp [List.append_assoc]
        · have hdd : (text.drop i).drop speed = text.drop (i + speed) := by
            rw [List.drop_drop]
          calc ((text.drop i).take speed :: slices').flatten
              = (text.drop i).take speed ++ slices'.flatten := by simp
            _ = (text.drop i).take speed ++ (text.drop i).drop speed := by
                rw [h2, hdd]
            _ = text.drop i := List.take_append_drop _ _
        · simp only [List.length_cons, h3]
          rw [hstep, harith]
        · intro n hn
          match n with
          | 0 => simp [Nat.mul_zero]
          | n + 1 =>
              simp only [List.getElem_cons_succ]
              have hn' : n < slices'.length := by
                simp only [List.length_cons] at hn
                omega
              rw [h4 n hn']
              congr 2
              ring
      · refine ⟨[], ?_, ?_, ?_, ?_⟩
        · have hstep : (text.length - i + speed - 1) / speed = 0 :=
            Nat.div_eq_of_lt (by omega)
          rw [revealPhase_done text speed i (k :: ks) acc (by omega), hstep]
          simp
        · have : text.drop i = [] := List.drop_eq_nil_of_le (by omega)
          simp [this]
        · have hstep : (text.length - i + speed - 1) / speed = 0 :=
            Nat.div_eq_of_lt (by omega)
          simp [hstep]
        · intro n hn
          simp at hn

/-- C1: for every command text of length `L` and reveal speed `s ≥ 1`, given
any `ESC`-free key sequence long enough to drive it, the reveal loop of
`magictype` performs exactly `⌈L/s⌉` reveal steps (consuming one key each),
the `n`-th step echoes the slice `text[s*n : s*n + s]` — at most `s`
characters starting at the cursor, clamped at the end of the text, never
reading past it — and the concatenation of all echoed slices is exactly the
original text. -/
theorem magictype_reveal_exact (text : List Char) (speed : Nat)
    (keys : List Char) (hs : 1 ≤ speed) (hesc : ∀ k ∈ keys, k ≠ ESC)
    (hlen : (text.length + speed - 1) / speed ≤ keys.length) :
    ∃ slices,
      revealPhase text speed 0 keys [] =
        .done slices (keys.drop ((text.length + speed - 1) / speed)) ∧
      slices.flatten = text ∧
      slices.length = (text.length + speed - 1) / speed ∧
      (∀ n (hn : n < slices.length),
        slices[n] = (text.drop (speed * n)).take speed) ∧
      ∀ sl ∈ slices, sl.length ≤ speed := by
  obtain ⟨slices, h1, h2, h3, h4⟩ :=
    revealPhase_complete text speed hs keys 0 [] hesc (by simpa using hlen)
  refine ⟨slices, ?_, by simpa using h2, by simpa using h3, ?_, ?_⟩
  · simpa using h1
  · intro n hn
    have := h4 n hn
    simpa using this
  · intro sl hsl
    obtain ⟨n, hn, rfl⟩ := List.getElem_of_mem hsl
    rw [h4 n hn]
    simp

/-- Concrete witness for C1: `echo hi` (7 characters) at speed 3 under the
key sequence `abc` takes `⌈7/3⌉ = 3` reveal steps and reproduces the text. -/
theorem magictype_reveal_exact_witness :
    (1 ≤ 3 ∧ (∀ k ∈ "abc".data, k ≠ ESC) ∧
      (("echo hi".data).length + 3 - 1) / 3 ≤ ("abc".data).length) ∧
    ∃ slices,
      revealPhase "echo hi".data 3 0 "abc".data [] =
        .done slices (("abc".data).drop ((("echo hi".data).length + 3 - 1) / 3)) ∧
      slices.flatten = "echo hi".data ∧
      slices.length = (("echo hi".data).length + 3 - 1) / 3 ∧
      (∀ n (hn : n < slices.length),
        slices[n] = (("echo hi".data).drop (3 * n)).take 3) ∧
      ∀ sl ∈ slices, sl.length ≤ 3 :=
  ⟨⟨by decide, by decide, by decide⟩,
    magictype_reveal_exact "echo hi".data 3 "abc".data (by decide) (by decide)
      (by decide)⟩

/-- If the reveal loop exhausts a key prefix while still waiting for a key,
then extending the input with `ESC` (followed by anything) cancels with the
same echo. -/
theorem revealPhase_starved_esc (text : List Char) (speed : Nat) :
    ∀ (pre : List Char) (i : Nat) (acc : List (List Char)) (post : List Char)
      (e : List (List Char)),
      revealPhase text speed i pre acc = .starved e →
      revealPhase text speed i (pre ++ ESC :: post) acc = .cancelled e := by
  intro pre
  induction pre with
  | nil =>
      intro i acc post e h
      rcases Nat.lt_or_ge i text.length with hi | hi
      · rw [revealPhase.eq_def] at h
        simp [hi] at h
        subst h
        rw [revealPhase.eq_def]
        simp [hi]
      · rw [revealPhase_done text speed i [] acc (by omega)] at h
        exact absurd h (by simp)
  | cons k ks ih =>
      intro i acc post e h
      rcases Nat.lt_or_ge i text.length with hi | hi
      · by_cases hk : k = ESC
        · rw [revealPhase.eq_def] at h
          simp [hi, hk] at h
        · rw [revealPhase_cons text speed i k ks acc hi hk] at h
          rw [List.cons_append, revealPhase_cons text speed i k _ acc hi hk]
          exact ih (i + speed) _ post e h
      · rw [revealPhase_done text speed i (k :: ks) acc (by omega)] at h
        exact absurd h (by simp)

/-- A finished reveal is unaffected by keys appended after the ones it
consumed. -/
theorem revealPhase_done_append (text : List Char) (speed : Nat) :
    ∀ (pre : List Char) (i : Nat) (acc : List (List Char)) (post : List Char)
      (sl : List (List Char)) (ks : List Char),
      revealPhase text speed i pre acc = .done sl ks →
      revealPhase text speed i (pre ++ post) acc = .done sl (ks ++ post) := by
  intro pre
  induction pre with
  | nil =>
      intro i acc post sl ks h
      rcases Nat.lt_or_ge i text.length with hi | hi
      · rw [revealPhase.eq_def] at h
        simp [hi] at h
      · rw [revealPhase_done text speed i [] acc (by omega)] at h
        simp at h
        rw [revealPhase_done text speed i ([] ++ post) acc (by omega)]
        simp [h.1, h.2]
  | cons k ks0 ih =>
      intro i acc post sl ks h
      rcases Nat.lt_or_ge i text.length with hi | hi
      · by_cases hk : k = ESC
        · rw [revealPhase.eq_def] at h
          simp [hi, hk] at h
        · rw [revealPhase_cons text speed i k ks0 acc hi hk] at h
          rw [List.cons_append, revealPhase_cons text speed i k _ acc hi hk]
          exact ih (i + speed) _ post sl ks h
      · rw [revealPhase_done text speed i (k :: ks0) acc (by omega)] at h
        simp at h
        rw [revealPhase_done text speed i ((k :: ks0) ++ post) acc (by omega)]
        simp [h.1, ← h.2]

/-- If `wait_for` exhausts a key prefix without seeing a commit or cancel
key, then extending the input with `ESC` cancels. -/
theorem wait_for_starved_esc :
    ∀ (pre post : List Char), wait_for pre = .starved →
      wait_for (pre ++ ESC :: post) = .cancelled := by
  intro pre
  induction pre with
  | nil =>
      intro post _
      simp [wait_for]
  | cons k ks ih =>
      intro post h
      rw [wait_for] at h
      by_cases hk : k = ESC
      · rw [if_pos hk] at h
        exact absurd h (by simp)
      · rw [if_neg hk] at h
        by_cases hr : k = '\r' ∨ k = '\n'
        · rw [if_pos hr] at h
          exact absurd h (by simp)
        · rw [if_neg hr] at h
          rw [List.cons_append, wait_for, if_neg hk, if_neg hr]
          exact ih post h

/-- C3: if the cancel key (`ESC`) is read at any reveal step or during the
commit wait, `magictype` raises `click.Abort` at once: whatever `ESC`-free
key prefix has been consumed so far (leaving the loop blocked on its next
read, i.e. `starved`), supplying `ESC` next — regardless of any later keys —
yields the `cancelled` outcome with the echoed text unchanged.  In
particular the outcome is not `committed`, the only outcome in which the
source reaches the `run_command` call (line 128), so the executor is never
invoked for that command. -/
theorem magictype_esc_cancels (text : List Char) (speed : Nat)
    (pre post e : List Char)
    (h : magictype text speed pre = .starved e) :
    magictype text speed (pre ++ ESC :: post) = .cancelled e := by
  unfold magictype at h ⊢
  rcases h1 : revealPhase text speed 0 pre [] with sl | sl | ⟨sl, ks⟩
  · have h2 := revealPhase_starved_esc text speed pre 0 [] post sl h1
    simp only [h1, MagicOutcome.starved.injEq] at h
    simp [h2, h]
  · simp only [h1] at h
    exact absurd h (by simp)
  · rcases h2 : wait_for ks with _ | _ | ks2
    · have h3 := revealPhase_done_append text speed pre 0 [] (ESC :: post) sl ks h1
      have h4 := wait_for_starved_esc ks post h2
      simp only [h1, h2, MagicOutcome.starved.injEq] at h
      simp [h3, h4, h]
    · simp only [h1, h2] at h
      exact absurd h (by simp)
    · simp only [h1, h2] at h
      exact absurd h (by simp)

/-- Concrete witness for C3: on text `xyz` at speed 1, the key prefix `ab`
reveals `xy` and leaves the loop blocked; pressing `ESC` then cancels with
the executor never invoked. -/
theorem magictype_esc_cancels_witness :
    magictype "xyz".data 1 "ab".data = .starved "xy".data ∧
    magictype "xyz".data 1 ("ab".data ++ ESC :: "q".data) = .cancelled "xy".data :=
  ⟨by decide, magictype_esc_cancels "xyz".data 1 "ab".data "q".data "xy".data (by decide)⟩

/-- `str.strip` yields the empty string exactly on all-whitespace input. -/
theorem pyStrip_eq_nil_iff (s : List Char) :
    pyStrip s = [] ↔ ∀ c ∈ s, pyIsSpace c := by
  unfold pyStrip
  rw [List.reverse_eq_nil_iff, List.dropWhile_eq_nil_iff]
  constructor
  · intro h c hc
    rcases h2 : s.dropWhile pyIsSpace with _ | ⟨d, u⟩
    · have hall := List.dropWhile_eq_nil_iff.mp h2
      exact hall c hc
    · have hd : pyIsSpace d = false := by
        have h0 := List.head?_dropWhile_not pyIsSpace s
        rw [h2] at h0
        simpa using h0
      have : d ∈ (s.dropWhile pyIsSpace).reverse := by simp [h2]
      have := h d this
      rw [hd] at this
      cases this
  · intro h c hc
    rw [List.mem_reverse] at hc
    exact h c ((List.dropWhile_sublist pyIsSpace).subset hc)

/-- `str.strip` does not disturb the first non-whitespace character. -/
theorem pyStrip_head (s : List Char) (c : Char) (u : List Char)
    (h : s.dropWhile pyIsSpace = c :: u) : ∃ v, pyStrip s = c :: v := by
  have hc : pyIsSpace c = false := by
    have h0 := List.head?_dropWhile_not pyIsSpace s
    rw [h] at h0
    simpa using h0
  unfold pyStrip
  rw [h]
  have hrev : (c :: u).reverse = u.reverse ++ [c] := by simp
  rw [hrev, List.dropWhile_append]
  by_cases he : (u.reverse.dropWhile pyIsSpace).isEmpty
  · rw [if_pos he]
    refine ⟨[], ?_⟩
    simp [List.dropWhile, hc]
  · rw [if_neg he]
    exact ⟨(u.reverse.dropWhile pyIsSpace).reverse, by simp⟩

/-- A successful parse starts at the comment marker. -/
theorem parseDirective_some_head (s : List Char) (x : DirOption × List Char)
    (h : parseDirective s = some x) : ∃ t, s = '#' :: t := by
  rw [parseDirective.eq_def] at h
  split at h
  · next rest => exact ⟨rest, rfl⟩
  · exact absurd h (by simp)

/-- C10: the Session Driver strips each line before classifying it: an
all-whitespace line is skipped as blank; a line whose first non-whitespace
character is `#` is handled as a comment or directive (never executed as a
command); any other line is executed as the command `line.strip()`, without
its surrounding whitespace. -/
theorem processLine_strip_classify (w : World) (cfg : Config) (line : List Char) :
    ((∀ c ∈ line, pyIsSpace c) → processLine w cfg line = .ok (cfg, .blank)) ∧
    ((line.dropWhile pyIsSpace).head? = some '#' →
      ∀ cfg' act, processLine w cfg line = .ok (cfg', act) → act = .commentLine) ∧
    (∀ c u, line.dropWhile pyIsSpace = c :: u → c ≠ '#' →
      processLine w cfg line = .ok (cfg, .command (pyStrip line))) := by
  refine ⟨?_, ?_, ?_⟩
  · intro hws
    have h0 : pyStrip line = [] := (pyStrip_eq_nil_iff line).mpr hws
    unfold processLine
    rw [h0, if_pos rfl]
  · intro hh cfg' act hok
    obtain ⟨c, u, h2⟩ : ∃ c u, line.dropWhile pyIsSpace = c :: u := by
      rcases hd : line.dropWhile pyIsSpace with _ | ⟨c, u⟩
      · rw [hd] at hh
        exact absurd hh (by simp)
      · exact ⟨c, u, rfl⟩
    rw [h2] at hh
    simp only [List.head?_cons, Option.some.injEq] at hh
    subst hh
    obtain ⟨v, hv⟩ := pyStrip_head line '#' u h2
    unfold processLine at hok
    rw [hv, if_neg (List.cons_ne_nil _ _),
      if_pos (show (('#' :: v : List Char)).head? = some '#' by simp)] at hok
    split at hok
    · split at hok
      · split at hok
        · simp only [Except.ok.injEq, Prod.mk.injEq] at hok
          exact hok.2.symm
        · exact absurd hok (by simp)
      · simp only [Except.ok.injEq, Prod.mk.injEq] at hok
        exact hok.2.symm
      · simp only [Except.ok.injEq, Prod.mk.injEq] at hok
        exact hok.2.symm
      · simp only [Except.ok.injEq, Prod.mk.injEq] at hok
        exact hok.2.symm
      · split at hok
        · simp only [Except.ok.injEq, Prod.mk.injEq] at hok
          exact hok.2.symm
        · exact absurd hok (by simp)
    · simp only [Except.ok.injEq, Prod.mk.injEq] at hok
      exact hok.2.symm
  · intro c u h2 hc
    obtain ⟨v, hv⟩ := pyStrip_head line c u h2
    unfold processLine
    rw [hv, if_neg (List.cons_ne_nil _ _), if_neg (by simp [hc]), ← hv]

/-- Concrete witness for C10: an all-whitespace line is skipped, a
`#`-headed line is inert, and `  ls -la  ` runs the stripped `ls -la`. -/
theorem processLine_strip_classify_witness :
    processLine ⟨"u".data, "/d".data, "/h".data, none⟩
        ⟨"/bin/bash".data, .dynamicDefault, 1, [], []⟩ "  \t ".data
      = .ok (⟨"/bin/bash".data, .dynamicDefault, 1, [], []⟩, .blank) ∧
    processLine ⟨"u".data, "/d".data, "/h".data, none⟩
        ⟨"/bin/bash".data, .dynamicDefault, 1, [], []⟩ "  ls -la  ".data
      = .ok (⟨"/bin/bash".data, .dynamicDefault, 1, [], []⟩,
          .command "ls -la".data) :=
  ⟨(processLine_strip_classify _ _ _).1 (by decide),
    by
      have h := (processLine_strip_classify
        ⟨"u".data, "/d".data, "/h".data, none⟩
        ⟨"/bin/bash".data, .dynamicDefault, 1, [], []⟩
        "  ls -la  ".data).2.2 'l' "s -la  ".data (by decide) (by decide)
      rw [h]
      decide⟩

/-- C4 counterexample: the spec calls a `speed` argument of `0` (or any
non-positive integer) a fatal configuration error, but `int("0")` succeeds
and the directive is applied: the session configuration's speed becomes `0`
and no error is raised. -/
theorem speed_zero_accepted :
    processLine ⟨"u".data, "/d".data, "/h".data, none⟩
        ⟨"/bin/bash".data, .dynamicDefault, 1, [], []⟩
        "# doitlive speed: 0".data
      = .ok (⟨"/bin/bash".data, .dynamicDefault, 0, [], []⟩, .commentLine) := by
  decide

/-- C4 (amended): the `speed` directive argument is converted with Python's
`int()`: an argument that does not parse as an optionally signed integer
raises an uncaught `ValueError`, aborting the session at the point the
directive is processed; any argument that does parse — including zero and
negative values — is accepted and becomes the new reveal speed. -/
theorem speed_directive_int_conversion (w : World) (cfg : Config)
    (line arg : List Char)
    (h : parseDirective (pyStrip line) = some (.speed, arg)) :
    (∀ n : Int, pyInt arg = some n →
        processLine w cfg line = .ok ({ cfg with speed := n }, .commentLine)) ∧
    (pyInt arg = none → processLine w cfg line = .error .valueError) := by
  obtain ⟨t, ht⟩ := parseDirective_some_head _ _ h
  rw [ht] at h
  constructor
  · intro n hn
    unfold processLine
    rw [ht, if_neg (List.cons_ne_nil _ _),
      if_pos (show (('#' :: t : List Char)).head? = some '#' by simp)]
    simp only [h, hn]
  · intro hn
    unfold processLine
    rw [ht, if_neg (List.cons_ne_nil _ _),
      if_pos (show (('#' :: t : List Char)).head? = some '#' by simp)]
    simp only [h, hn]

/-- Concrete witness for C4 (amended): `7` is accepted and sets the speed;
`fast` raises `ValueError`. -/
theorem speed_directive_int_conversion_witness :
    processLine ⟨"u".data, "/d".data, "/h".data, none⟩
        ⟨"/bin/bash".data, .dynamicDefault, 1, [], []⟩
        "# doitlive speed: 7".data
      = .ok (⟨"/bin/bash".data, .dynamicDefault, 7, [], []⟩, .commentLine) ∧
    processLine ⟨"u".data, "/d".data, "/h".data, none⟩
        ⟨"/bin/bash".data, .dynamicDefault, 1, [], []⟩
        "# doitlive speed: fast".data
      = .error .valueError :=
  ⟨(speed_directive_int_conversion _ _ _ "7".data (by decide)).1 7 (by decide),
    (speed_directive_int_conversion _ _ _ "fast".data (by decide)).2 (by decide)⟩

/-- `startsWithCd` succeeds only on commands of the shape `cd <rest>`. -/
theorem startsWithCd_shape (s : List Char) (h : startsWithCd s = true) :
    ∃ r, s = 'c' :: 'd' :: ' ' :: r := by
  rw [startsWithCd.eq_def] at h
  split at h
  · next r => exact ⟨r, rfl⟩
  · exact absurd h (by simp)

/-- C5: a command line whose stripped text begins with the built-in token
`cd ` followed by a path makes the driver change the process's own working
directory to that path (home-expanded), with no sub-process execution and no
script construction (the session records only a `changedDir` event and the
child-behaviour oracle is never consulted), and a subsequent dynamic-prompt
render is computed from — and therefore reflects — the new working
directory. -/
theorem cd_command_in_process (w : World) (cfg : Config) (check_output : Bool)
    (codes : Nat → Int) (outs : Nat → List Char) (k : Nat)
    (line d : List Char)
    (h1 : startsWithCd (pyStrip line) = true)
    (h2 : (pySplit (pyStrip line))[1]? = some d)
    (hw : w.doitlivePrompt = none) :
    runLines check_output codes outs w cfg [line] k =
      .ok ({ w with cwd := chdirResolve w.cwd (expanduser w.home d) }, cfg,
        [.changedDir (expanduser w.home d)]) ∧
    get_default_prompt { w with cwd := chdirResolve w.cwd (expanduser w.home d) } =
      styleCyanBold w.user ++ "@".data ++
        styleGreen (displayCwdRaw
          { w with cwd := chdirResolve w.cwd (expanduser w.home d) }) ++
        ": $".data := by
  obtain ⟨r, hr⟩ := startsWithCd_shape _ h1
  have hpl : processLine w cfg line = .ok (cfg, .command (pyStrip line)) := by
    unfold processLine
    rw [hr, if_neg (List.cons_ne_nil _ _), if_neg (by simp), ← hr]
  have hrc : run_command (pyStrip line) cfg.shell w.home check_output
      cfg.aliases cfg.envvars (codes k) (outs k) = .didChdir (expanduser w.home d) := by
    unfold run_command
    rw [if_pos h1]
    simp only [h2]
  constructor
  · unfold runLines
    simp only [hpl, hrc]
    rw [runLines.eq_def]
    simp [Except.map]
  · simp [get_default_prompt, hw, PromptState.update]

/-- Concrete witness for C5: `cd ~/demo` from `/h` moves the tracked
directory to `/h/demo` and the next dynamic prompt shows `demo`. -/
theorem cd_command_in_process_witness :
    runLines false (fun _ => 0) (fun _ => []) ⟨"u".data, "/h".data, "/h".data, none⟩
        ⟨"/bin/bash".data, .dynamicDefault, 1, [], []⟩ ["cd ~/demo".data] 0 =
      .ok (⟨"u".data, "/h/demo".data, "/h".data, none⟩,
        ⟨"/bin/bash".data, .dynamicDefault, 1, [], []⟩,
        [.changedDir "/h/demo".data]) ∧
    get_default_prompt ⟨"u".data, "/h/demo".data, "/h".data, none⟩ =
      styleCyanBold "u".data ++ "@".data ++ styleGreen "demo".data ++ ": $".data := by
  have h := cd_command_in_process ⟨"u".data, "/h".data, "/h".data, none⟩
    ⟨"/bin/bash".data, .dynamicDefault, 1, [], []⟩ false (fun _ => 0) (fun _ => [])
    0 "cd ~/demo".data "~/demo".data (by decide) (by decide) (by decide)
  constructor
  · have h1 := h.1
    simpa using h1
  · have h2 := h.2
    simpa using h2

/-- One processed line leaves each accumulator unchanged or appends exactly
one entry (helper for C7). -/
theorem processLine_accum_step (w : World) (cfg : Config) (line : List Char)
    (cfg' : Config) (act : LineAction)
    (hok : processLine w cfg line = .ok (cfg', act)) :
    (cfg'.aliases = cfg.aliases ∨ ∃ a, cfg'.aliases = cfg.aliases ++ [a]) ∧
    (cfg'.envvars = cfg.envvars ∨ ∃ e, cfg'.envvars = cfg.envvars ++ [e]) := by
  unfold processLine at hok
  split at hok
  · simp only [Except.ok.injEq, Prod.mk.injEq] at hok
    rw [← hok.1]
    exact ⟨Or.inl rfl, Or.inl rfl⟩
  · split at hok
    · split at hok
      · split at hok
        · split at hok
          · simp only [Except.ok.injEq, Prod.mk.injEq] at hok
            rw [← hok.1]
            exact ⟨Or.inl rfl, Or.inl rfl⟩
          · exact absurd hok (by simp)
        · simp only [Except.ok.injEq, Prod.mk.injEq] at hok
          rw [← hok.1]
          exact ⟨Or.inl rfl, Or.inl rfl⟩
        · simp only [Except.ok.injEq, Prod.mk.injEq] at hok
          rw [← hok.1]
          exact ⟨Or.inr ⟨_, rfl⟩, Or.inl rfl⟩
        · simp only [Except.ok.injEq, Prod.mk.injEq] at hok
          rw [← hok.1]
          exact ⟨Or.inl rfl, Or.inr ⟨_, rfl⟩⟩
        · split at hok
          · simp only [Except.ok.injEq, Prod.mk.injEq] at hok
            rw [← hok.1]
            exact ⟨Or.inl rfl, Or.inl rfl⟩
          · exact absurd hok (by simp)
      · simp only [Except.ok.injEq, Prod.mk.injEq] at hok
        rw [← hok.1]
        exact ⟨Or.inl rfl, Or.inl rfl⟩
    · simp only [Except.ok.injEq, Prod.mk.injEq] at hok
      rw [← hok.1]
      exact ⟨Or.inl rfl, Or.inl rfl⟩

/-- Over a whole session run, each accumulator of the starting configuration
stays a prefix of the final one (helper for C7). -/
theorem runLines_accum_prefix (check_output : Bool) (codes : Nat → Int)
    (outs : Nat → List Char) :
    ∀ (lines : List (List Char)) (w : World) (cfg : Config) (k : Nat)
      (w' : World) (cfg' : Config) (evs : List SessionEvent),
      runLines check_output codes outs w cfg lines k = .ok (w', cfg', evs) →
      cfg.aliases <+: cfg'.aliases ∧ cfg.envvars <+: cfg'.envvars := by
  intro lines
  induction lines with
  | nil =>
      intro w cfg k w' cfg' evs h
      simp only [runLines, Except.ok.injEq, Prod.mk.injEq] at h
      rw [← h.2.1]
      exact ⟨List.prefix_refl _, List.prefix_refl _⟩
  | cons line rest ih =>
      intro w cfg k w' cfg' evs h
      simp only [runLines] at h
      rcases hp : processLine w cfg line with e | ⟨cfg1, act⟩
      · simp only [hp] at h
        exact absurd h (by simp)
      · simp only [hp] at h
        have hstep := processLine_accum_step w cfg line cfg1 act hp
        have hstep1 : cfg.aliases <+: cfg1.aliases := by
          rcases hstep.1 with h1 | ⟨a, h1⟩
          · rw [h1]
          · rw [h1]; exact ⟨[a], rfl⟩
        have hstep2 : cfg.envvars <+: cfg1.envvars := by
          rcases hstep.2 with h1 | ⟨e2, h1⟩
          · rw [h1]
          · rw [h1]; exact ⟨[e2], rfl⟩
        cases act with
        | blank =>
            obtain ⟨ih1, ih2⟩ := ih w cfg1 k w' cfg' evs h
            exact ⟨hstep1.trans ih1, hstep2.trans ih2⟩
        | commentLine =>
            obtain ⟨ih1, ih2⟩ := ih w cfg1 k w' cfg' evs h
            exact ⟨hstep1.trans ih1, hstep2.trans ih2⟩
        | command cmd =>
            rcases hrc : run_command cmd cfg1.shell w.home check_output
                cfg1.aliases cfg1.envvars (codes k) (outs k) with
              d | _ | ⟨s, c⟩ | ⟨s, o⟩ | ⟨s, c⟩ <;> simp only [hrc] at h
            · rcases hr2 : runLines check_output codes outs
                  { w with cwd := chdirResolve w.cwd d } cfg1 rest k with e2 | ⟨w2, cfg2, evs2⟩ <;>
                rw [hr2] at h
              · exact absurd h (by simp [Except.map])
              · simp only [Except.map, Except.ok.injEq, Prod.mk.injEq] at h
                obtain ⟨ih1, ih2⟩ := ih _ cfg1 k w2 cfg2 evs2 hr2
                rw [← h.2.1]
                exact ⟨hstep1.trans ih1, hstep2.trans ih2⟩
            · exact absurd h (by simp)
            · rcases hr2 : runLines check_output codes outs w cfg1 rest (k + 1) with
                e2 | ⟨w2, cfg2, evs2⟩ <;> rw [hr2] at h
              · exact absurd h (by simp [Except.map])
              · simp only [Except.map, Except.ok.injEq, Prod.mk.injEq] at h
                obtain ⟨ih1, ih2⟩ := ih _ cfg1 (k + 1) w2 cfg2 evs2 hr2
                rw [← h.2.1]
                exact ⟨hstep1.trans ih1, hstep2.trans ih2⟩
            · rcases hr2 : runLines check_output codes outs w cfg1 rest (k + 1) with
                e2 | ⟨w2, cfg2, evs2⟩ <;> rw [hr2] at h
              · exact absurd h (by simp [Except.map])
              · simp only [Except.map, Except.ok.injEq, Prod.mk.injEq] at h
                obtain ⟨ih1, ih2⟩ := ih _ cfg1 (k + 1) w2 cfg2 evs2 hr2
                rw [← h.2.1]
                exact ⟨hstep1.trans ih1, hstep2.trans ih2⟩
            · exact absurd h (by simp)

/-- C7: within one session the alias and env accumulators are append-only —
processing any line either leaves them unchanged or appends one entry, over
a whole run the starting lists remain prefixes (nothing is removed or
reordered), and a command's execution script exports every accumulated env
assignment, in accumulation order, as one contiguous block. -/
theorem accumulators_append_only :
    (∀ (w : World) (cfg : Config) (line : List Char) (cfg' : Config)
        (act : LineAction), processLine w cfg line = .ok (cfg', act) →
      (cfg'.aliases = cfg.aliases ∨ ∃ a, cfg'.aliases = cfg.aliases ++ [a]) ∧
      (cfg'.envvars = cfg.envvars ∨ ∃ e, cfg'.envvars = cfg.envvars ++ [e])) ∧
    (∀ (check_output : Bool) (codes : Nat → Int) (outs : Nat → List Char)
        (lines : List (List Char)) (w : World) (cfg : Config) (k : Nat)
        (w' : World) (cfg' : Config) (evs : List SessionEvent),
      runLines check_output codes outs w cfg lines k = .ok (w', cfg', evs) →
      cfg.aliases <+: cfg'.aliases ∧ cfg.envvars <+: cfg'.envvars) ∧
    (∀ (cmd shell : List Char) (aliases envvars : List (List Char)),
      ∃ pre post, buildScript cmd shell aliases envvars =
        pre ++ (envvars.map exportLine).flatten ++ post) :=
  ⟨processLine_accum_step,
    fun check_output codes outs lines w cfg k w' cfg' evs h =>
      runLines_accum_prefix check_output codes outs lines w cfg k w' cfg' evs h,
    fun cmd shell aliases envvars =>
      ⟨"#!".data ++ shell ++ ['\n'] ++ "# -*- coding: utf-8 -*-".data ++ ['\n'] ++
          (if hasSubstr "bash".data shell then
            "shopt -s expand_aliases".data ++ ['\n'] else []),
        (aliases.map aliasLine).flatten ++ cmd ++ ['\n'],
        by simp [buildScript]⟩⟩

/-- Concrete witness for C7: an `env` directive appends, and the resulting
script exports both accumulated assignments in order. -/
theorem accumulators_append_only_witness :
    processLine ⟨"u".data, "/d".data, "/h".data, none⟩
        ⟨"/bin/sh".data, .dynamicDefault, 1, [], ["A=1".data]⟩
        "# doitlive env: B=2".data
      = .ok (⟨"/bin/sh".data, .dynamicDefault, 1, [], ["A=1".data, "B=2".data]⟩,
          .commentLine) ∧
    (["A=1".data, "B=2".data] =
        (["A=1".data] : List (List Char)) ++ ["B=2".data] ∨ True) ∧
    ∃ pre post,
      buildScript "ls".data "/bin/sh".data []
          ["A=1".data, "B=2".data] =
        pre ++ ((["A=1".data, "B=2".data] : List (List Char)).map
          exportLine).flatten ++ post := by
  refine ⟨?_, Or.inr trivial, ?_⟩
  · have h := (accumulators_append_only.1 ⟨"u".data, "/d".data, "/h".data, none⟩
      ⟨"/bin/sh".data, .dynamicDefault, 1, [], ["A=1".data]⟩
      "# doitlive env: B=2".data
      ⟨"/bin/sh".data, .dynamicDefault, 1, [], ["A=1".data, "B=2".data]⟩
      .commentLine)
    decide
  · exact accumulators_append_only.2.2 "ls".data "/bin/sh".data []
      ["A=1".data, "B=2".data]

/-- In non-capture mode `run_command` ignores the child oracle's output and
returns the exit code without raising (helper for C9). -/
theorem run_command_nocapture (cmd shell home : List Char)
    (aliases envvars : List (List Char)) (code : Int) (out : List Char)
    (hcd : startsWithCd cmd = false) :
    run_command cmd shell home false aliases envvars code out =
      .retCode (buildScript cmd shell aliases envvars) code := by
  simp [run_command, hcd]

/-- In non-capture mode the whole session run is the same function of the
lines whatever exit codes and outputs the children produce (helper for C9). -/
theorem runLines_nocapture_oracle_irrelevant (codes codes' : Nat → Int)
    (outs outs' : Nat → List Char) :
    ∀ (lines : List (List Char)) (w : World) (cfg : Config) (k k' : Nat),
      runLines false codes outs w cfg lines k =
        runLines false codes' outs' w cfg lines k' := by
  intro lines
  induction lines with
  | nil => intro w cfg k k'; rfl
  | cons line rest ih =>
      intro w cfg k k'
      simp only [runLines]
      rcases hp : processLine w cfg line with e | ⟨cfg1, act⟩
      · rfl
      · simp only [hp]
        cases act with
        | blank => exact ih w cfg1 k k'
        | commentLine => exact ih w cfg1 k k'
        | command cmd =>
            cases hcd : startsWithCd cmd with
            | true =>
                rcases hsp : (pySplit cmd)[1]? with _ | d
                · simp [run_command, hcd, hsp]
                · simp [run_command, hcd, hsp, ih _ cfg1 k k']
            | false =>
                have e1 := run_command_nocapture cmd cfg1.shell w.home cfg1.aliases
                  cfg1.envvars (codes k) (outs k) hcd
                have e2 := run_command_nocapture cmd cfg1.shell w.home cfg1.aliases
                  cfg1.envvars (codes' k') (outs' k') hcd
                simp only [e1, e2]
                simp [ih w cfg1 (k + 1) (k' + 1)]

/-- A non-capture session never raises `CalledProcessError` (helper for C9). -/
theorem runLines_nocapture_no_proc_error (codes : Nat → Int)
    (outs : Nat → List Char) :
    ∀ (lines : List (List Char)) (w : World) (cfg : Config) (k : Nat) (c : Int),
      runLines false codes outs w cfg lines k ≠
        .error (.calledProcessError c) := by
  intro lines
  induction lines with
  | nil => intro w cfg k c; simp [runLines]
  | cons line rest ih =>
      intro w cfg k c h
      simp only [runLines] at h
      rcases hp : processLine w cfg line with e | ⟨cfg1, act⟩
      · simp only [hp] at h
        -- the only errors a directive can raise are ValueError / format errors
        have : e ≠ .calledProcessError c := by
          unfold processLine at hp
          by_cases h1 : pyStrip line = []
          · rw [if_pos h1] at hp
            exact absurd hp (by simp)
          · rw [if_neg h1] at hp
            by_cases h2 : (pyStrip line).head? = some '#'
            · rw [if_pos h2] at hp
              rcases hpd : parseDirective (pyStrip line) with _ | ⟨o, arg⟩
              · simp only [hpd] at hp
                exact absurd hp (by simp)
              · simp only [hpd] at hp
                cases o
                · rcases hf : format_prompt w arg with _ | p <;> simp only [hf] at hp
                  · simp only [Except.error.injEq] at hp
                    rw [← hp]
                    simp
                  · exact absurd hp (by simp)
                · exact absurd hp (by simp)
                · exact absurd hp (by simp)
                · exact absurd hp (by simp)
                · rcases hi : pyInt arg with _ | n <;> simp only [hi] at hp
                  · simp only [Except.error.injEq] at hp
                    rw [← hp]
                    simp
                  · exact absurd hp (by simp)
            · rw [if_neg h2] at hp
              exact absurd hp (by simp)
        simp only [Except.error.injEq] at h
        exact this h
      · simp only [hp] at h
        cases act with
        | blank => exact ih w cfg1 k c h
        | commentLine => exact ih w cfg1 k c h
        | command cmd =>
            cases hcd : startsWithCd cmd with
            | true =>
                rcases hsp : (pySplit cmd)[1]? with _ | d
                · simp [run_command, hcd, hsp] at h
                · simp only [run_command, hcd, hsp, if_true] at h
                  rcases hr2 : runLines false codes outs
                      { w with cwd := chdirResolve w.cwd (expanduser w.home d) }
                      cfg1 rest k with e2 | r2 <;> simp only [hr2] at h
                  · simp only [Except.map, Except.error.injEq] at h
                    exact ih _ cfg1 k c (by rw [hr2, h])
                  · exact absurd h (by simp [Except.map])
            | false =>
                have e1 := run_command_nocapture cmd cfg1.shell w.home cfg1.aliases
                  cfg1.envvars (codes k) (outs k) hcd
                simp only [e1] at h
                rcases hr2 : runLines false codes outs w cfg1 rest (k + 1) with
                  e2 | r2 <;> simp only [hr2] at h
                · simp only [Except.map, Except.error.injEq] at h
                  exact ih w cfg1 (k + 1) c (by rw [hr2, h])
                · exact absurd h (by simp [Except.map])

/-- C9: in non-capture mode a non-zero exit status of the executed command
does not abort the session — `run_command` returns the exit code rather than
raising, the run never raises `CalledProcessError`, and the whole session's
outcome is independent of every child's exit code and output, so playback
continues with the next line; in capture mode the executor surfaces the
child's result to its caller: the collected output on exit 0, and a raised
`CalledProcessError` carrying the exit code otherwise. -/
theorem nonzero_exit_policy :
    (∀ (cmd shell home : List Char) (aliases envvars : List (List Char))
        (code : Int) (out : List Char), startsWithCd cmd = false →
      run_command cmd shell home false aliases envvars code out =
        .retCode (buildScript cmd shell aliases envvars) code) ∧
    (∀ (codes codes' : Nat → Int) (outs outs' : Nat → List Char)
        (lines : List (List Char)) (w : World) (cfg : Config) (k k' : Nat),
      runLines false codes outs w cfg lines k =
        runLines false codes' outs' w cfg lines k') ∧
    (∀ (codes : Nat → Int) (outs : Nat → List Char) (lines : List (List Char))
        (w : World) (cfg : Config) (k : Nat) (c : Int),
      runLines false codes outs w cfg lines k ≠
        .error (.calledProcessError c)) ∧
    (∀ (cmd shell home : List Char) (aliases envvars : List (List Char))
        (code : Int) (out : List Char), startsWithCd cmd = false →
      (code = 0 → run_command cmd shell home true aliases envvars code out =
        .captured (buildScript cmd shell aliases envvars) out) ∧
      (code ≠ 0 → run_command cmd shell home true aliases envvars code out =
        .procError (buildScript cmd shell aliases envvars) code)) := by
  refine ⟨run_command_nocapture,
    fun codes codes' outs outs' => runLines_nocapture_oracle_irrelevant codes codes' outs outs',
    fun codes outs => runLines_nocapture_no_proc_error codes outs, ?_⟩
  intro cmd shell home aliases envvars code out hcd
  constructor
  · intro h0
    simp [run_command, hcd, h0]
  · intro h0
    simp [run_command, hcd, h0]

/-- Concrete witness for C9: a failing `false`-style command (exit 1) leaves
a non-capture session identical to one where it succeeded, while capture
mode surfaces the exit. -/
theorem nonzero_exit_policy_witness :
    runLines false (fun _ => 1) (fun _ => []) ⟨"u".data, "/d".data, "/h".data, none⟩
        ⟨"/bin/sh".data, .dynamicDefault, 1, [], []⟩ ["false".data, "echo ok".data] 0 =
      runLines false (fun _ => 0) (fun _ => []) ⟨"u".data, "/d".data, "/h".data, none⟩
        ⟨"/bin/sh".data, .dynamicDefault, 1, [], []⟩ ["false".data, "echo ok".data] 0 ∧
    run_command "false".data "/bin/sh".data "/h".data true [] [] 1 [] =
      .procError (buildScript "false".data "/bin/sh".data [] []) 1 :=
  ⟨nonzero_exit_policy.2.1 (fun _ => 1) (fun _ => 0) (fun _ => []) (fun _ => [])
      ["false".data, "echo ok".data] ⟨"u".data, "/d".data, "/h".data, none⟩
      ⟨"/bin/sh".data, .dynamicDefault, 1, [], []⟩ 0 0,
    (nonzero_exit_policy.2.2.2 "false".data "/bin/sh".data "/h".data [] [] 1 []
      (by decide)).2 (by decide)⟩

/-- C6 counterexample: the constructed script does not consist only of the
parts the claim lists — `run_command` also writes an encoding-declaration
comment line after the shebang.  At `cmd = x`, `shell = /bin/sh`, no aliases
and no env assignments, the claimed script and the actual script differ. -/
theorem script_coding_line_missing_from_claim :
    buildScript "x".data "/bin/sh".data [] [] ≠
      claimedScriptSpec "x".data "/bin/sh".data [] [] ∧
    buildScript "x".data "/bin/sh".data [] [] =
      "#!/bin/sh\n# -*- coding: utf-8 -*-\nx\n".data ∧
    claimedScriptSpec "x".data "/bin/sh".data [] [] = "#!/bin/sh\nx\n".data := by
  refine ⟨?_, ?_, ?_⟩ <;> decide

/-- C6 (amended): the execution script consists, in order, of the
interpreter shebang line; an unconditional encoding-declaration comment
line; the interpreter-specific preamble when the interpreter requires it
(alias expansion enabled when the interpreter path contains `bash`); one
export statement per accumulated env assignment in accumulation order; one
alias statement per accumulated alias definition in accumulation order; and
finally the literal command text — in particular, after an alias directive
for `ll=ls -la`, executing `ll` produces a script in which the alias
statement for `ll=ls -la` precedes the literal line `ll`. -/
theorem buildScript_structure :
    (∀ (cmd shell : List Char) (aliases envvars : List (List Char)),
      buildScript cmd shell aliases envvars =
        claimedScriptAmended cmd shell aliases envvars) ∧
    runLines false (fun _ => 0) (fun _ => [])
        ⟨"u".data, "/d".data, "/h".data, none⟩
        ⟨"/bin/bash".data, .dynamicDefault, 1, [], []⟩
        ["# doitlive alias: ll=ls -la".data, "ll".data] 0 =
      .ok (⟨"u".data, "/d".data, "/h".data, none⟩,
        ⟨"/bin/bash".data, .dynamicDefault, 1, ["ll=ls -la".data], []⟩,
        [.ranScript ("#!/bin/bash\n# -*- coding: utf-8 -*-\nshopt -s expand_aliases\n".data
          ++ aliasLine "ll=ls -la".data ++ ("ll".data ++ ['\n']))]) := by
  constructor
  · intro cmd shell aliases envvars
    unfold buildScript claimedScriptAmended scriptLinesAmended
    by_cases hb : hasSubstr "bash".data shell = true
    · simp [hb, List.map_append, List.flatten_append, List.append_assoc]
      rfl
    · simp [hb, List.map_append, List.flatten_append, List.append_assoc]
      rfl
  · decide

/-- C8 counterexample: with `DOITLIVE_PROMPT` set to the template
`{user}>`, the rendered default prompt is the template text itself — the
`{user}` placeholder is *not* substituted at configuration time (or ever),
as `format_prompt` would have produced a different string. -/
theorem doitlive_prompt_not_formatted :
    get_default_prompt ⟨"u".data, "/a/b".data, "/h".data, some "{user}>".data⟩ =
      "{user}>".data ∧
    format_prompt ⟨"u".data, "/a/b".data, "/h".data, some "{user}>".data⟩
        "{user}>".data ≠
      some "{user}>".data := by
  constructor <;> decide

/-- C8 (amended): if `DOITLIVE_PROMPT` is set (and nonempty), the default
prompt renderer returns its value verbatim — no placeholder substitution is
performed on it — and it thereby takes precedence over the computed dynamic
default; it governs every default render until an in-script `prompt`
directive replaces the session prompt with its *formatted* argument, after
which renders use that static string and the environment variable is no
longer consulted. -/
theorem doitlive_prompt_override (w : World) (p : List Char)
    (hset : w.doitlivePrompt = some p) (hne : p ≠ []) :
    get_default_prompt w = p ∧
    (∀ s, resolvePrompt w (.staticStr s) = s) ∧
    (∀ (cfg : Config) (line arg fp : List Char),
      parseDirective (pyStrip line) = some (.prompt, arg) →
      format_prompt w arg = some fp →
      processLine w cfg line = .ok ({ cfg with prompt := .staticStr fp },
        .commentLine)) := by
  refine ⟨?_, fun s => rfl, ?_⟩
  · unfold get_default_prompt
    rw [hset]
    simp [hne]
  · intro cfg line arg fp hpd hf
    obtain ⟨t, ht⟩ := parseDirective_some_head _ _ hpd
    rw [ht] at hpd
    unfold processLine
    rw [ht, if_neg (List.cons_ne_nil _ _),
      if_pos (show (('#' :: t : List Char)).head? = some '#' by simp)]
    simp only [hpd, hf]

/-- Concrete witness for C8 (amended): `DOITLIVE_PROMPT = P>` is rendered
verbatim, and a `prompt` directive installs the formatted argument. -/
theorem doitlive_prompt_override_witness :
    get_default_prompt ⟨"u".data, "/a/b".data, "/h".data, some "P>".data⟩ =
      "P>".data ∧
    processLine ⟨"u".data, "/a/b".data, "/h".data, some "P>".data⟩
        ⟨"/bin/bash".data, .dynamicDefault, 1, [], []⟩
        "# doitlive prompt: go $".data
      = .ok (⟨"/bin/bash".data, .staticStr "go $".data, 1, [], []⟩,
          .commentLine) := by
  have h := doitlive_prompt_override
    ⟨"u".data, "/a/b".data, "/h".data, some "P>".data⟩ "P>".data rfl (by decide)
  exact ⟨h.1,
    h.2.2 ⟨"/bin/bash".data, .dynamicDefault, 1, [], []⟩
      "# doitlive prompt: go $".data "go $".data "go $".data
      (by decide) (by decide)⟩

/-! ### Lemmas for the directive-parser claim -/

/-- `chompLit` succeeds exactly on literal-prefixed inputs. -/
theorem chompLit_eq_some :
    ∀ (p s r : List Char), chompLit p s = some r ↔ s = p ++ r := by
  intro p
  induction p with
  | nil =>
      intro s r
      simp [chompLit]
  | cons c cs ih =>
      intro s r
      cases s with
      | nil => simp [chompLit]
      | cons d ds =>
          by_cases hcd : c = d
          · subst hcd
            simp [chompLit, ih ds r]
          · simp [chompLit, hcd]
            intro h
            exact absurd h.symm hcd

/-- `chompLit` recovers the remainder after its own literal. -/
theorem chompLit_self (p r : List Char) : chompLit p (p ++ r) = some r :=
  (chompLit_eq_some p (p ++ r) r).mpr rfl

/-- No option name contains a colon. -/
theorem optionName_no_colon (o : DirOption) : ':' ∉ optionName o := by
  cases o <;> decide

/-- Splitting at the first colon is unambiguous. -/
theorem colon_align :
    ∀ (a b x y : List Char), ':' ∉ a → ':' ∉ b →
      a ++ ':' :: x = b ++ ':' :: y → a = b ∧ x = y := by
  intro a
  induction a with
  | nil =>
      intro b x y _ hb h
      cases b with
      | nil => simpa using h
      | cons d ds =>
          simp only [List.nil_append, List.cons_append, List.cons.injEq] at h
          exact absurd (h.1 ▸ List.mem_cons_self d ds) (by simpa [← h.1] using hb)
  | cons c cs ih =>
      intro b x y ha hb h
      cases b with
      | nil =>
          simp only [List.cons_append, List.nil_append, List.cons.injEq] at h
          exact absurd (h.1 ▸ List.mem_cons_self c cs) (by simpa [h.1] using ha)
      | cons d ds =>
          simp only [List.cons_append, List.cons.injEq] at h
          obtain ⟨rfl, h2⟩ := h
          obtain ⟨h3, h4⟩ := ih ds x y (fun hm => ha (List.mem_cons_of_mem _ hm))
            (fun hm => hb (List.mem_cons_of_mem _ hm)) h2
          exact ⟨by rw [h3], h4⟩

/-- Inversion for the option alternation: a successful `chompOption` means
the input was exactly the option name, a colon, and the remainder. -/
theorem chompOption_sound (s : List Char) (o : DirOption) (r : List Char)
    (h : chompOption s = some (o, r)) : s = optionName o ++ ':' :: r := by
  unfold chompOption at h
  have hmem : (o, r) ∈ allOptions.filterMap fun o' =>
      (chompLit (optionName o') s).bind fun r' =>
        (chompLit [':'] r').map fun r2 => (o', r2) :=
    List.mem_of_mem_head? (by rw [h]; simp)
  rw [List.mem_filterMap] at hmem
  obtain ⟨o', _, hf⟩ := hmem
  rw [Option.bind_eq_some] at hf
  obtain ⟨r', h1, h2⟩ := hf
  rw [Option.map_eq_some'] at h2
  obtain ⟨r2, h3, h4⟩ := h2
  obtain ⟨rfl, rfl⟩ : o' = o ∧ r2 = r := by
    constructor <;> [exact congrArg Prod.fst h4; exact congrArg Prod.snd h4]
  rw [chompLit_eq_some] at h1 h3
  rw [h1, h3]
  rfl

/-- The option alternation accepts each recognized option name. -/
theorem chompOption_complete (o : DirOption) (r : List Char) :
    chompOption (optionName o ++ ':' :: r) = some (o, r) := by
  cases o <;> rfl

/-- `parseArg` fails on the empty remainder. -/
theorem parseArg_nil : parseArg [] = none := rfl

/-- On newline-free input whose last character is not whitespace (true of
every suffix of a stripped line), `parseArg` returns exactly the input minus
its leading whitespace — the spec's `ArgMatch` relation. -/
theorem parseArg_clean (s : List Char) (hnl : '\n' ∉ s)
    (hlast : ∀ c, s.getLast? = some c → ¬ pyIsSpace c) :
    ∀ arg, parseArg s = some arg ↔ ArgMatch s arg := by
  intro arg
  cases hs : s with
  | nil =>
      subst hs
      rw [parseArg_nil]
      constructor
      · intro h
        exact absurd h (by simp)
      · rintro ⟨pad, hpad, _, hne, _⟩
        have : pad = [] ∧ arg = [] := by
          constructor <;> [exact (List.append_eq_nil.mp hpad.symm).1;
            exact (List.append_eq_nil.mp hpad.symm).2]
        exact absurd this.2 hne
  | cons c0 s0 =>
      rw [← hs]
      have hsne : s ≠ [] := by rw [hs]; exact List.cons_ne_nil _ _
      obtain ⟨l, hl⟩ : ∃ l, s.getLast? = some l := by
        rcases hgl : s.getLast? with _ | l
        · rw [List.getLast?_eq_none_iff] at hgl
          exact absurd hgl hsne
        · exact ⟨l, rfl⟩
      have hlws : ¬ pyIsSpace l := hlast l hl
      have hu : s.dropWhile pyIsSpace ≠ [] := by
        intro hu0
        have hall := List.dropWhile_eq_nil_iff.mp hu0
        exact hlws (hall l (List.mem_of_getLast?_eq_some hl))
      have hulast : (s.dropWhile pyIsSpace).getLast? = some l := by
        rw [← List.takeWhile_append_dropWhile pyIsSpace s] at hl
        rwa [List.getLast?_append_of_ne_nil _ hu] at hl
      have hstep1 : parseArg s = some (s.dropWhile pyIsSpace) := by
        unfold parseArg
        rw [if_neg hu]
        have hlnl : (s.dropWhile pyIsSpace).getLast? ≠ some '\n' := by
          rw [hulast]
          intro hx
          apply hlws
          have : l = '\n' := by simpa using hx
          rw [this]
          decide
        rw [if_neg hlnl]
        have hnonl : (s.dropWhile pyIsSpace).any (· = '\n') = false := by
          rw [List.any_eq_false]
          intro x hx
          have hxs : x ∈ s := (List.dropWhile_sublist pyIsSpace).subset hx
          simp only [decide_eq_true_eq]
          intro hxeq
          rw [hxeq] at hxs
          exact hnl hxs
        rw [if_neg (by simp [hnonl])]
      rw [hstep1]
      constructor
      · intro h
        obtain rfl : s.dropWhile pyIsSpace = arg := Option.some.inj h
        refine ⟨s.takeWhile pyIsSpace,
          (List.takeWhile_append_dropWhile pyIsSpace s).symm,
          fun c hc => List.mem_takeWhile_imp hc, hu, ?_⟩
        intro c hc
        have h0 := List.head?_dropWhile_not pyIsSpace s
        rw [hc] at h0
        simpa using h0
      · rintro ⟨pad, hpad, hpadws, hargne, harghead⟩
        have hdrop : s.dropWhile pyIsSpace = arg := by
          rw [hpad, List.dropWhile_append_of_pos hpadws]
          cases arg with
          | nil => exact absurd rfl hargne
          | cons a0 as =>
              have ha0 : ¬ pyIsSpace a0 := by
                have := harghead a0 rfl
                simpa using this
              exact List.dropWhile_cons_of_neg (by simpa using ha0)
        rw [hdrop]

/-- `\s?` does nothing in front of the literal keyword. -/
theorem chompOptSpace_doitlive (X : List Char) :
    chompOptSpace ("doitlive".data ++ X) = "doitlive".data ++ X := rfl

/-- `\s?` consumes one leading whitespace character. -/
theorem chompOptSpace_ws (c : Char) (t : List Char) (hc : pyIsSpace c) :
    chompOptSpace (c :: t) = t := by
  simp [chompOptSpace, hc]

/-- Splitting a whitespace block followed by a non-whitespace head. -/
theorem takeWhile_ws_block (pre post : List Char)
    (hpre : ∀ c ∈ pre, pyIsSpace c)
    (hpost : ∀ c, post.head? = some c → ¬ pyIsSpace c) :
    (pre ++ post).takeWhile pyIsSpace = pre ∧
    (pre ++ post).dropWhile pyIsSpace = post := by
  constructor
  · rw [List.takeWhile_append_of_pos hpre]
    cases post with
    | nil => simp
    | cons p ps =>
        have hp := hpost p rfl
        rw [List.takeWhile_cons_of_neg (by simpa using hp)]
        simp
  · rw [List.dropWhile_append_of_pos hpre]
    cases post with
    | nil => simp
    | cons p ps =>
        have hp := hpost p rfl
        exact List.dropWhile_cons_of_neg (by simpa using hp)

/-- Every option name starts with a letter, never whitespace. -/
theorem optionName_head_not_ws (o : DirOption) (rest : List Char) :
    ∀ c, (optionName o ++ rest).head? = some c → ¬ pyIsSpace c := by
  cases o <;> intro c hc <;> simp [optionName] at hc <;> subst hc <;> decide

/-- A suffix of a newline-free line with a non-whitespace last character is
itself newline-free with a non-whitespace last character. -/
theorem suffix_clean (pre rest line : List Char) (hline : line = pre ++ rest)
    (hnl : '\n' ∉ line) (hlast : ∀ c, line.getLast? = some c → ¬ pyIsSpace c)
    (hne : rest ≠ []) :
    '\n' ∉ rest ∧ ∀ c, rest.getLast? = some c → ¬ pyIsSpace c := by
  constructor
  · intro hx
    exact hnl (hline ▸ List.mem_append_right _ hx)
  · intro c hc
    apply hlast c
    rw [hline, List.getLast?_append_of_ne_nil _ hne, hc]

/-- The front end of `OPTION_RE`: on a line of the shape
`# doitlive<ws><tail>` the matcher reduces to the option-and-argument part
applied to the tail. -/
theorem parseDirective_front (sep ws1 tail0 : List Char)
    (hsep : sep = [] ∨ ∃ c, pyIsSpace c ∧ sep = [c])
    (hws : ws1 ≠ []) (hws2 : ∀ c ∈ ws1, pyIsSpace c)
    (hhead : ∀ c, tail0.head? = some c → ¬ pyIsSpace c) :
    parseDirective ('#' :: (sep ++ "doitlive".data ++ ws1 ++ tail0)) =
      (chompOption tail0).bind fun (o, r3) =>
        (parseArg r3).map fun arg => (o, arg) := by
  have hstep : chompOptSpace (sep ++ "doitlive".data ++ ws1 ++ tail0) =
      "doitlive".data ++ (ws1 ++ tail0) := by
    rcases hsep with rfl | ⟨c, hc, rfl⟩
    · simp only [List.nil_append, List.append_assoc]
      rfl
    · simp only [List.cons_append, List.nil_append, List.append_assoc]
      exact chompOptSpace_ws c _ hc
  obtain ⟨ht, hd⟩ := takeWhile_ws_block ws1 tail0 hws2 hhead
  simp only [parseDirective, hstep, chompLit_self, Option.some_bind, ht, hd,
    if_neg hws]

/-- Soundness of the matcher against the spec's directive shape: whenever
`OPTION_RE` matches a stripped line, the line decomposes exactly as the
shape prescribes, with the matched option and argument. -/
theorem parseDirective_sound (line : List Char) (o : DirOption) (arg : List Char)
    (hnl : '\n' ∉ line) (hlast : ∀ c, line.getLast? = some c → ¬ pyIsSpace c)
    (h : parseDirective line = some (o, arg)) : DirectiveShape line o arg := by
  obtain ⟨t, rfl⟩ := parseDirective_some_head _ _ h
  simp only [parseDirective] at h
  rw [Option.bind_eq_some] at h
  obtain ⟨r, h1, h2⟩ := h
  rw [chompLit_eq_some] at h1
  obtain ⟨sep, hsepcond, hts⟩ :
      ∃ sep, (sep = [] ∨ ∃ c, pyIsSpace c ∧ sep = [c]) ∧
        t = sep ++ ("doitlive".data ++ r) := by
    cases t with
    | nil =>
        rw [chompOptSpace] at h1
        exact absurd h1 (by simp)
    | cons c cs =>
        by_cases hc : pyIsSpace c
        · rw [chompOptSpace_ws c cs hc] at h1
          exact ⟨[c], Or.inr ⟨c, hc, rfl⟩, by rw [← h1]; rfl⟩
        · have h1' : c :: cs = "doitlive".data ++ r := by
            rw [← h1]
            simp [chompOptSpace, hc]
          exact ⟨[], Or.inl rfl, by rw [← h1']; rfl⟩
  by_cases hwsnil : r.takeWhile pyIsSpace = []
  · rw [if_pos hwsnil] at h2
    exact absurd h2 (by simp)
  · rw [if_neg hwsnil] at h2
    rw [Option.bind_eq_some] at h2
    obtain ⟨⟨o', r3⟩, h3, h4⟩ := h2
    rw [Option.map_eq_some'] at h4
    obtain ⟨a2, h5, h6⟩ := h4
    have ho : o = o' := (congrArg Prod.fst h6).symm
    have ha : arg = a2 := (congrArg Prod.snd h6).symm
    subst ho
    subst ha
    have hr2 := chompOption_sound _ _ _ h3
    have hline : ('#' :: t : List Char) =
        '#' :: (sep ++ "doitlive".data ++ r.takeWhile pyIsSpace ++
          optionName o ++ ':' :: r3) := by
      rw [hts]
      simp only [List.append_assoc]
      rw [← hr2, List.takeWhile_append_dropWhile]
    have hr3ne : r3 ≠ [] := by
      intro h0
      rw [h0, parseArg_nil] at h5
      exact absurd h5 (by simp)
    have hclean := suffix_clean
      ('#' :: (sep ++ "doitlive".data ++ r.takeWhile pyIsSpace ++
        optionName o ++ [':'])) r3 ('#' :: t)
      (by rw [hline]; simp [List.append_assoc]) hnl hlast hr3ne
    refine ⟨sep, r.takeWhile pyIsSpace, r3, hline, hsepcond, hwsnil,
      fun c hc => List.mem_takeWhile_imp hc, ?_⟩
    exact (parseArg_clean r3 hclean.1 hclean.2 arg).mp h5

/-- Completeness of the matcher: every line of the directive shape with a
recognized option is matched, producing exactly that option and argument. -/
theorem parseDirective_complete (line : List Char) (o : DirOption)
    (arg : List Char) (hnl : '\n' ∉ line)
    (hlast : ∀ c, line.getLast? = some c → ¬ pyIsSpace c)
    (hshape : DirectiveShape line o arg) : parseDirective line = some (o, arg) := by
  obtain ⟨sep, ws1, rest, hline, hsep, hws, hws2, harg⟩ := hshape
  obtain ⟨pad, hpad, hpadws, hargne, harghead⟩ := harg
  have hrestne : rest ≠ [] := by
    intro h0
    rw [h0] at hpad
    exact hargne (List.append_eq_nil.mp hpad.symm).2
  have hclean := suffix_clean
    ('#' :: (sep ++ "doitlive".data ++ ws1 ++ optionName o ++ [':'])) rest line
    (by rw [hline]; simp [List.append_assoc]) hnl hlast hrestne
  have hline' : line =
      '#' :: (sep ++ "doitlive".data ++ ws1 ++ (optionName o ++ ':' :: rest)) := by
    rw [hline]
    simp [List.append_assoc]
  rw [hline', parseDirective_front sep ws1 (optionName o ++ ':' :: rest) hsep hws
    hws2 (optionName_head_not_ws o _), chompOption_complete, Option.some_bind]
  show Option.map (fun a => (o, a)) (parseArg rest) = some (o, arg)
  rw [(parseArg_clean rest hclean.1 hclean.2 arg).mpr
    ⟨pad, hpad, hpadws, hargne, harghead⟩]
  rfl

/-- A comment-plus-keyword line whose option word is not one of the five
recognized names never matches. -/
theorem parseDirective_unrecognized (sep ws1 word rest : List Char)
    (hsep : sep = [] ∨ ∃ c, pyIsSpace c ∧ sep = [c])
    (hws : ws1 ≠ []) (hws2 : ∀ c ∈ ws1, pyIsSpace c)
    (hword : word ≠ []) (hwordc : ∀ c ∈ word, ¬ pyIsSpace c ∧ c ≠ ':')
    (hnot : ∀ o, word ≠ optionName o) :
    parseDirective ('#' :: (sep ++ "doitlive".data ++ ws1 ++ (word ++ ':' :: rest)))
      = none := by
  have hhead : ∀ c, (word ++ ':' :: rest).head? = some c → ¬ pyIsSpace c := by
    intro c hc
    cases word with
    | nil => exact absurd rfl hword
    | cons a as =>
        have hac : a = c := by simpa using hc
        rw [← hac]
        exact (hwordc a (by simp)).1
  rw [parseDirective_front sep ws1 (word ++ ':' :: rest) hsep hws hws2 hhead]
  rcases hco : chompOption (word ++ ':' :: rest) with _ | ⟨o, r⟩
  · rfl
  · have := chompOption_sound _ _ _ hco
    obtain ⟨hw, _⟩ := colon_align word (optionName o) rest r
      (fun hm => (hwordc ':' hm).2 rfl) (optionName_no_colon o) this
    exact absurd hw (hnot o)

/-- C2: on the inputs the driver actually feeds the parser — stripped lines,
which contain no newline and end in a non-whitespace character — the
directive parser yields a directive exactly when the line matches the
directive shape (comment marker, keyword `doitlive`, one of the five option
names, colon, argument), and then yields precisely that (option, argument)
pair; a line with the comment-marker-plus-keyword shape but an unrecognized
option word yields no directive, and any unmatched `#`-line leaves the
session configuration unchanged. -/
theorem parseDirective_exact :
    (∀ (line : List Char) (o : DirOption) (arg : List Char),
      '\n' ∉ line → (∀ c, line.getLast? = some c → ¬ pyIsSpace c) →
      (parseDirective line = some (o, arg) ↔ DirectiveShape line o arg)) ∧
    (∀ (sep ws1 word rest : List Char),
      (sep = [] ∨ ∃ c, pyIsSpace c ∧ sep = [c]) → ws1 ≠ [] →
      (∀ c ∈ ws1, pyIsSpace c) → word ≠ [] →
      (∀ c ∈ word, ¬ pyIsSpace c ∧ c ≠ ':') → (∀ o, word ≠ optionName o) →
      parseDirective
        ('#' :: (sep ++ "doitlive".data ++ ws1 ++ (word ++ ':' :: rest))) = none) ∧
    (∀ (w : World) (cfg : Config) (line : List Char),
      (pyStrip line).head? = some '#' → parseDirective (pyStrip line) = none →
      processLine w cfg line = .ok (cfg, .commentLine)) := by
  refine ⟨fun line o arg hnl hlast =>
    ⟨parseDirective_sound line o arg hnl hlast,
      parseDirective_complete line o arg hnl hlast⟩,
    parseDirective_unrecognized, ?_⟩
  intro w cfg line hhash hnone
  have hne : pyStrip line ≠ [] := by
    intro h0
    rw [h0] at hhash
    exact absurd hhash (by simp)
  unfold processLine
  rw [if_neg hne, if_pos hhash]
  simp only [hnone]

/-- Concrete witness for C2: a recognized directive line matches the shape
with its exact (option, argument) pair, an unrecognized option word does not
match, and the unmatched comment leaves the configuration unchanged. -/
theorem parseDirective_exact_witness :
    DirectiveShape "# doitlive shell: /bin/zsh".data .shell "/bin/zsh".data ∧
    parseDirective "# doitlive wibble: x".data = none ∧
    processLine ⟨"u".data, "/d".data, "/h".data, none⟩
        ⟨"/bin/bash".data, .dynamicDefault, 1, [], []⟩
        "# doitlive wibble: x".data
      = .ok (⟨"/bin/bash".data, .dynamicDefault, 1, [], []⟩, .commentLine) := by
  refine ⟨?_, ?_, ?_⟩
  · exact (parseDirective_exact.1 "# doitlive shell: /bin/zsh".data .shell
      "/bin/zsh".data (by decide)
      (by
        intro c hc
        have h0 : ("# doitlive shell: /bin/zsh".data).getLast? = some 'h' := rfl
        rw [h0] at hc
        have hch : c = 'h' := (Option.some.inj hc).symm
        rw [hch]
        decide)).mp (by decide)
  · exact parseDirective_exact.2.1 [' '] [' '] "wibble".data " x".data
      (Or.inr ⟨' ', by decide, rfl⟩) (by decide) (by decide) (by decide)
      (by decide) (by intro o; cases o <;> decide)
  · exact parseDirective_exact.2.2 ⟨"u".data, "/d".data, "/h".data, none⟩
      ⟨"/bin/bash".data, .dynamicDefault, 1, [], []⟩
      "# doitlive wibble: x".data (by decide) (by decide)

end Doitlive
